import Mathlib

/-!
Verification of the Cuckoo Cycle miner plugin (edge trimmer, cycle finder and
job-queue worker) against its natural-language specification.  The definitions
below are shallow embeddings of the C++ source: machine integers become `Nat`
with explicit reductions modulo `2 ^ w` where overflow matters, byte buffers
become lists, and the process-global atomics of the worker become fields of an
explicit state record threaded through the functions.
-/

namespace CuckooMiner

/-- `PROOFSIZE` from the build parameters: the target cycle length (42). -/
def PROOFSIZE : Nat := 42

/-- `MAX_DATA_LENGTH` from the worker header: maximal accepted input size. -/
def MAX_DATA_LENGTH : Nat := 2048

/-- `MAX_QUEUE_SIZE` from the worker header: bound on the input queue. -/
def MAX_QUEUE_SIZE : Nat := 20

/-- A record of the input queue (`struct queueInput`): id, 8-byte nonce,
stored length and the (zero-padded) data buffer. -/
structure QueueInput where
  id : Nat
  nonce : List Nat
  length : Nat
  data : List Nat
  deriving Repr, DecidableEq

/-- A record of the output queue (`struct queueOutput`). -/
structure QueueOutput where
  id : Nat
  nonce : List Nat
  result_nonces : List Nat
  cuckoo_size : Nat
  deriving Repr, DecidableEq

/-- The process-global mutable state of the worker: the two queues and the
atomic flags (`should_quit`, `processing_finished`,
`internal_processing_finished`, `SINGLE_MODE`), plus a count of the worker
threads that have been spawned with `pthread_create`. -/
structure WorkerState where
  shouldQuit : Bool
  processingFinished : Bool
  internalProcessingFinished : Bool
  singleMode : Bool
  workerThreads : Nat
  inputQueue : List QueueInput
  outputQueue : List QueueOutput
  deriving Repr, DecidableEq

/-- `cuckoo_push_to_input_queue`: returns 4 when `should_quit` is set, 2 when
the data is longer than `MAX_DATA_LENGTH`, 1 when the queue already holds
`MAX_QUEUE_SIZE` items, and otherwise appends the item (with the data buffer
zero-padded to `MAX_DATA_LENGTH` bytes, as the `memset`/`memcpy` pair does)
and returns 0. -/
def cuckoo_push_to_input_queue (st : WorkerState) (id : Nat) (data : List Nat)
    (nonce : List Nat) : Nat × WorkerState :=
  if st.shouldQuit then (4, st)
  else if MAX_DATA_LENGTH < data.length then (2, st)
  else if MAX_QUEUE_SIZE ≤ st.inputQueue.length then (1, st)
  else
    let item : QueueInput :=
      { id := id
        nonce := nonce
        length := data.length
        data := data ++ List.replicate (MAX_DATA_LENGTH - data.length) 0 }
    (0, { st with inputQueue := st.inputQueue ++ [item] })

/-- `cuckoo_start_processing`: clears `should_quit`, clears
`processing_finished`, leaves single mode and spawns the worker thread. -/
def cuckoo_start_processing (st : WorkerState) : Nat × WorkerState :=
  (0, { st with
          shouldQuit := false
          processingFinished := false
          singleMode := false
          workerThreads := st.workerThreads + 1 })

/-- `cuckoo_stop_processing`: sets `should_quit` and returns 1. -/
def cuckoo_stop_processing (st : WorkerState) : Nat × WorkerState :=
  (1, { st with shouldQuit := true })

/-- `cuckoo_has_processing_stopped`: 1 once both `processing_finished` and
`internal_processing_finished` hold, else 0. -/
def cuckoo_has_processing_stopped (st : WorkerState) : Nat :=
  if st.processingFinished && st.internalProcessingFinished then 1 else 0

/-- `cuckoo_reset_processing`: clears `should_quit`, re-enters single mode
and returns 1.  Nothing else of the state is touched. -/
def cuckoo_reset_processing (st : WorkerState) : Nat × WorkerState :=
  (1, { st with shouldQuit := false, singleMode := true })

/-- One `try_dequeue` on a queue modelled as a list: drop the head when the
queue is non-empty, do nothing otherwise.  Both cases are `List.tail`. -/
def tryDequeue {α : Type} (q : List α) : List α := q.tail

/-- The loop body of `cuckoo_clear_queues`, iterated `n` times: one dequeue
attempt on each of the two queues per iteration. -/
def clearLoop : Nat → List QueueInput × List QueueOutput →
    List QueueInput × List QueueOutput
  | 0, qs => qs
  | n + 1, (inq, outq) => clearLoop n (tryDequeue inq, tryDequeue outq)

/-- `cuckoo_clear_queues`: performs `MAX_QUEUE_SIZE` dequeue attempts on each
of the input and the output queue. -/
def cuckoo_clear_queues (st : WorkerState) : WorkerState :=
  let qs := clearLoop MAX_QUEUE_SIZE (st.inputQueue, st.outputQueue)
  { st with inputQueue := qs.1, outputQueue := qs.2 }

theorem clearLoop_eq_drop (n : Nat) (inq : List QueueInput)
    (outq : List QueueOutput) :
    clearLoop n (inq, outq) = (inq.drop n, outq.drop n) := by
  induction n generalizing inq outq with
  | zero => simp [clearLoop]
  | succ n ih =>
      simp only [clearLoop, tryDequeue, ih, ← List.drop_one, List.drop_drop,
        Nat.add_comm 1 n]

/-- The result-publishing part of `cuckoo_call` (single-solve entry point):
`sols` is the flat concatenation of all proofs found by `solver_ctx::solve`
(42 nonces each), `verify` is the external proof verifier from `cuckoo.h`
(a parameter here: the source only compares its result against `POW_OK` to
choose a diagnostic), `sol0` is the caller's output buffer.  When at least
one solution exists the first 42 nonces are copied out and 1 is returned
from inside the loop; otherwise the buffer is untouched and 0 is returned. -/
def cuckoo_call_publish (verify : List Nat → Nat) (POW_OK : Nat)
    (sols : List Nat) (sol0 : List Nat) : Nat × List Nat :=
  let nsols := sols.length / PROOFSIZE
  if nsols = 0 then (0, sol0)
  else
    let prf := sols.take PROOFSIZE
    let pow_rc := verify prf
    if pow_rc = POW_OK then (1, prf) else (1, prf)

/-- C3: `cuckoo_push_to_input_queue(id, data, data_length, nonce)` returns 4
when the stop flag `should_quit` is set; otherwise returns 2 when the data
length exceeds 2048 bytes; otherwise returns 1 when the input queue already
holds at least `MAX_QUEUE_SIZE = 20` items; otherwise it enqueues the item
`(id, nonce, length, data)` (data zero-padded to the fixed buffer width) and
returns 0. -/
theorem push_to_input_queue_cases (st : WorkerState) (id : Nat)
    (data nonce : List Nat) :
    (st.shouldQuit = true → cuckoo_push_to_input_queue st id data nonce = (4, st)) ∧
    (st.shouldQuit = false → 2048 < data.length →
      cuckoo_push_to_input_queue st id data nonce = (2, st)) ∧
    (st.shouldQuit = false → data.length ≤ 2048 → 20 ≤ st.inputQueue.length →
      cuckoo_push_to_input_queue st id data nonce = (1, st)) ∧
    (st.shouldQuit = false → data.length ≤ 2048 → st.inputQueue.length < 20 →
      cuckoo_push_to_input_queue st id data nonce =
        (0, { st with inputQueue := st.inputQueue ++
                [{ id := id, nonce := nonce, length := data.length,
                   data := data ++ List.replicate (2048 - data.length) 0 }] })) := by
  refine ⟨fun hq => ?_, fun hq hlen => ?_, fun hq hlen hfull => ?_,
    fun hq hlen hroom => ?_⟩
  · simp [cuckoo_push_to_input_queue, hq]
  · simp [cuckoo_push_to_input_queue, hq, MAX_DATA_LENGTH, hlen]
  · simp only [cuckoo_push_to_input_queue, hq, MAX_DATA_LENGTH, MAX_QUEUE_SIZE,
      Bool.false_eq_true, if_false, if_neg (by omega : ¬ 2048 < data.length),
      if_pos hfull]
  · simp only [cuckoo_push_to_input_queue, hq, MAX_DATA_LENGTH, MAX_QUEUE_SIZE,
      Bool.false_eq_true, if_false, if_neg (by omega : ¬ 2048 < data.length),
      if_neg (by omega : ¬ 20 ≤ st.inputQueue.length)]

/-- Witness for C3: all four return codes are realised on concrete states. -/
theorem push_to_input_queue_cases_witness :
    (cuckoo_push_to_input_queue ⟨true, true, true, true, 0, [], []⟩ 7 [1] [0]).1 = 4 ∧
    (cuckoo_push_to_input_queue ⟨false, true, true, true, 0, [], []⟩ 7
      (List.replicate 2049 1) [0]).1 = 2 ∧
    (cuckoo_push_to_input_queue
      ⟨false, true, true, true, 0, List.replicate 20 ⟨0, [], 0, []⟩, []⟩ 7 [1] [0]).1 = 1 ∧
    (cuckoo_push_to_input_queue ⟨false, true, true, true, 0, [], []⟩ 7 [1] [0]).1 = 0 := by
  refine ⟨?_, ?_, ?_, ?_⟩
  · exact congrArg Prod.fst
      ((push_to_input_queue_cases ⟨true, true, true, true, 0, [], []⟩ 7 [1] [0]).1 rfl)
  · exact congrArg Prod.fst
      ((push_to_input_queue_cases ⟨false, true, true, true, 0, [], []⟩ 7
        (List.replicate 2049 1) [0]).2.1 rfl
        (by simp only [List.length_replicate]; omega))
  · exact congrArg Prod.fst
      ((push_to_input_queue_cases
        ⟨false, true, true, true, 0, List.replicate 20 ⟨0, [], 0, []⟩, []⟩ 7
        [1] [0]).2.2.1 rfl (by simp) (by simp))
  · exact congrArg Prod.fst
      ((push_to_input_queue_cases ⟨false, true, true, true, 0, [], []⟩ 7
        [1] [0]).2.2.2 rfl (by simp) (by simp))

/-- C8: `cuckoo_reset_processing` clears `should_quit`, returns 1, does not
spawn a worker thread, leaves `processing_finished` (and
`internal_processing_finished`, hence also `cuckoo_has_processing_stopped`)
unchanged, and leaves both queues unchanged: a stopped worker stays stopped. -/
theorem reset_processing_frame (st : WorkerState) :
    ((cuckoo_reset_processing st).2.shouldQuit = false ∧
      (cuckoo_reset_processing st).1 = 1) ∧
    (cuckoo_reset_processing st).2.workerThreads = st.workerThreads ∧
    (cuckoo_reset_processing st).2.processingFinished = st.processingFinished ∧
    (cuckoo_reset_processing st).2.internalProcessingFinished =
      st.internalProcessingFinished ∧
    (cuckoo_reset_processing st).2.inputQueue = st.inputQueue ∧
    (cuckoo_reset_processing st).2.outputQueue = st.outputQueue ∧
    cuckoo_has_processing_stopped (cuckoo_reset_processing st).2 =
      cuckoo_has_processing_stopped st := by
  simp [cuckoo_reset_processing, cuckoo_has_processing_stopped]

/-- C9: `cuckoo_clear_queues` performs exactly `MAX_QUEUE_SIZE = 20` dequeue
attempts on each queue, i.e. drops at most the first 20 elements of each; an
output queue holding more than 20 items is still non-empty afterwards. -/
theorem clear_queues_drops_at_most_twenty (st : WorkerState) :
    (cuckoo_clear_queues st).inputQueue = st.inputQueue.drop 20 ∧
    (cuckoo_clear_queues st).outputQueue = st.outputQueue.drop 20 ∧
    (20 < st.outputQueue.length → (cuckoo_clear_queues st).outputQueue ≠ []) := by
  refine ⟨?_, ?_, ?_⟩
  · simp [cuckoo_clear_queues, MAX_QUEUE_SIZE, clearLoop_eq_drop]
  · simp [cuckoo_clear_queues, MAX_QUEUE_SIZE, clearLoop_eq_drop]
  · intro hlen
    simp only [cuckoo_clear_queues, MAX_QUEUE_SIZE, clearLoop_eq_drop, ne_eq,
      ← List.length_eq_zero, List.length_drop]
    omega

/-- Witness for C9: with 21 queued outputs, one survives the clearing. -/
theorem clear_queues_drops_at_most_twenty_witness :
    (cuckoo_clear_queues
      ⟨false, true, true, true, 0, [], List.replicate 21 ⟨0, [], [], 0⟩⟩).outputQueue ≠ [] :=
  (clear_queues_drops_at_most_twenty
    ⟨false, true, true, true, 0, [], List.replicate 21 ⟨0, [], [], 0⟩⟩).2.2 (by simp)

/-- C10: whenever the solver found at least one solution, `cuckoo_call`
writes the 42 nonces of the first solution into the output buffer and
returns 1, and this result is independent of the proof verifier's outcome:
any two verifiers (and any two `POW_OK` codes) give the same result. -/
theorem cuckoo_call_publish_first_solution (verify verify' : List Nat → Nat)
    (pow_ok pow_ok' : Nat) (sols sol0 : List Nat)
    (hsols : PROOFSIZE ≤ sols.length) :
    cuckoo_call_publish verify pow_ok sols sol0 = (1, sols.take PROOFSIZE) ∧
    cuckoo_call_publish verify pow_ok sols sol0 =
      cuckoo_call_publish verify' pow_ok' sols sol0 := by
  have hne : sols.length / PROOFSIZE ≠ 0 := by
    simp only [PROOFSIZE] at hsols ⊢
    omega
  constructor
  · simp only [cuckoo_call_publish, hne, if_neg hne]
    by_cases h : verify (sols.take PROOFSIZE) = pow_ok <;> simp [h]
  · simp only [cuckoo_call_publish, hne, if_neg hne]
    by_cases h : verify (sols.take PROOFSIZE) = pow_ok <;>
      by_cases h' : verify' (sols.take PROOFSIZE) = pow_ok' <;> simp [h, h']

/-- Witness for C10: a concrete 42-nonce solution is published unchanged by
two verifiers that disagree about it. -/
theorem cuckoo_call_publish_first_solution_witness :
    cuckoo_call_publish (fun _ => 0) 0 (List.replicate 42 5) [] =
      (1, List.replicate 42 5) ∧
    cuckoo_call_publish (fun _ => 0) 0 (List.replicate 42 5) [] =
      cuckoo_call_publish (fun _ => 1) 0 (List.replicate 42 5) [] := by
  have h := cuckoo_call_publish_first_solution (fun _ => 0) (fun _ => 1) 0 0
    (List.replicate 42 5) [] (by simp [PROOFSIZE])
  exact ⟨by rw [h.1]; simp [PROOFSIZE], h.2⟩

/-! ## SipHash and the edge function `dipnode` -/

/-- `2 ^ 64`, the modulus of the `u64` arithmetic. -/
def M64 : Nat := 2 ^ 64

/-- `ROTL(x,b)` on a 64-bit value. -/
def rotl64 (x r : Nat) : Nat := ((x <<< r) % M64) ||| (x >>> (64 - r))

/-- The four-word internal state of SipHash. -/
structure SipState where
  v0 : Nat
  v1 : Nat
  v2 : Nat
  v3 : Nat
  deriving Repr, DecidableEq

/-- Modelled from the spec: the `SIPROUND` macro of the external SipHash-2-4
primitive (the spec treats SipHash-2-4 as a pure function with a fixed
contract; its `cuckoo.h` implementation is not part of the sources), i.e. the
standard SipHash round on four 64-bit words. -/
def sipround (s : SipState) : SipState :=
  let v0 := (s.v0 + s.v1) % M64
  let v2 := (s.v2 + s.v3) % M64
  let v1 := rotl64 s.v1 13
  let v3 := rotl64 s.v3 16
  let v1 := v1 ^^^ v0
  let v3 := v3 ^^^ v2
  let v0 := rotl64 v0 32
  let v2 := (v2 + v1) % M64
  let v0 := (v0 + v3) % M64
  let v1 := rotl64 v1 17
  let v3 := rotl64 v3 21
  let v1 := v1 ^^^ v2
  let v3 := v3 ^^^ v0
  let v2 := rotl64 v2 32
  ⟨v0, v1, v2, v3⟩

/-- The four SipHash keys derived from the header (`siphash_keys`). -/
structure SipKeys where
  k0 : Nat
  k1 : Nat
  k2 : Nat
  k3 : Nat
  deriving Repr, DecidableEq

/-- The shared body of `dipnode`: initialise the state from the four given
words (with `v3` keyed by the message), run two rounds, fold the message into
`v0`, XOR `0xff` into `v2`, run four more rounds, and XOR the four words. -/
def dipnodeBody (w0 w1 w2 w3 msg : Nat) : Nat :=
  let s0 : SipState := ⟨w0 % M64, w1 % M64, w2 % M64, (w3 % M64) ^^^ (msg % M64)⟩
  let s2pre := sipround (sipround s0)
  let s2 : SipState := ⟨s2pre.v0 ^^^ (msg % M64), s2pre.v1, s2pre.v2 ^^^ 0xff, s2pre.v3⟩
  let s6 := sipround (sipround (sipround (sipround s2)))
  s6.v0 ^^^ s6.v1 ^^^ s6.v2 ^^^ s6.v3

/-- The scalar (non-funnel-shift) `dipnode` of the source: note that it
initialises `v1` with `keys.k0`, not `keys.k1`.  The result is reduced by
`EDGEMASK`, i.e. to the low `edgebits` bits. -/
def dipnode (edgebits : Nat) (keys : SipKeys) (nce uorv : Nat) : Nat :=
  dipnodeBody keys.k0 keys.k0 keys.k2 keys.k3 (2 * nce + uorv) % 2 ^ edgebits

/-- The vectorised (`__CUDA_ARCH__ >= 320`) `dipnode` of the source, which
initialises `v1` with `keys.k1`. -/
def dipnodeCuda (edgebits : Nat) (keys : SipKeys) (nce uorv : Nat) : Nat :=
  dipnodeBody keys.k0 keys.k1 keys.k2 keys.k3 (2 * nce + uorv) % 2 ^ edgebits

/-- Modelled from the spec: `edge(i, side)` = SipHash-2-4 of the message
`2*i + side` under the four header-derived keys `(k0, k1, k2, k3)` — internal
state initialised as `v0 = k0`, `v1 = k1`, `v2 = k2`, `v3 = k3 XOR message` —
masked to the low `edgebits` bits. -/
def edgeFunctionSipSpec (edgebits : Nat) (keys : SipKeys) (nce uorv : Nat) : Nat :=
  dipnodeBody keys.k0 keys.k1 keys.k2 keys.k3 (2 * nce + uorv) % 2 ^ edgebits

/-- C1: the scalar `dipnode` of the source does NOT compute SipHash-2-4 of
`2*i + side` — its `v1 = keys.k0` initialisation (instead of `keys.k1`)
changes the output as soon as `k0 ≠ k1` — while the vectorised path agrees
with the SipHash-2-4 specification everywhere.  Evaluated here at the
concrete input `keys = (0,1,0,0)`, `i = 0`, `side = 0`, `E = 29`. -/
theorem dipnode_scalar_v1_uses_k0 :
    dipnode 29 ⟨0, 1, 0, 0⟩ 0 0 ≠ edgeFunctionSipSpec 29 ⟨0, 1, 0, 0⟩ 0 0 ∧
    (∀ (eb : Nat) (k : SipKeys) (i s : Nat),
      dipnodeCuda eb k i s = edgeFunctionSipSpec eb k i s) :=
  ⟨by decide, fun _ _ _ _ => rfl⟩

/-! ## Cycle finder: path following and the `MAXPATHLEN` cap -/

/-- `NODEBITS = EDGEBITS + 1`. -/
def NODEBITS (edgebits : Nat) : Nat := edgebits + 1

/-- `MAXPATHLEN = 8 << ((NODEBITS + 2) / 3)`, the hard cap on cuckoo-table
path length. -/
def MAXPATHLEN (edgebits : Nat) : Nat := 8 <<< ((NODEBITS edgebits + 2) / 3)

/-- Outcome of `solver_ctx::path`: either the collected node list `us`
(the function's return value is `us.length - 1`), or `exited`, which models
the `exit(0)` call that terminates the whole process when the cap is hit. -/
inductive PathOut where
  | ok (us : List Nat) : PathOut
  | exited : PathOut
  deriving Repr, DecidableEq

/-- The loop of `solver_ctx::path`: follow the cuckoo table (`none` models
`CUCKOO_NIL`) collecting visited nodes; when the collected count reaches
`maxlen` the process exits.  `fuel` only bounds the recursion; with
`fuel > maxlen` it is never the deciding test. -/
def pathGo (cuckoo : Nat → Option Nat) (maxlen : Nat) :
    Nat → Option Nat → List Nat → PathOut
  | _, none, acc => .ok acc
  | fuel, some x, acc =>
    if maxlen ≤ acc.length then .exited
    else
      match fuel with
      | 0 => .exited
      | f + 1 => pathGo cuckoo maxlen f (cuckoo x) (acc ++ [x])

/-- `solver_ctx::path(u, us)` with the cap instantiated from `edgebits`. -/
def pathRun (edgebits : Nat) (cuckoo : Nat → Option Nat) (u0 : Nat) : PathOut :=
  pathGo cuckoo (MAXPATHLEN edgebits) (MAXPATHLEN edgebits + 1) (some u0) []

/-- C6 (evaluation at the failing input): with `EDGEBITS = 2`
(`MAXPATHLEN = 16`) and a cuckoo table containing the self-loop
`cuckoo[1] = 1`, following the path from node 1 hits the cap and the code
calls `exit(0)` — modelled as `PathOut.exited` — terminating the whole
process instead of making the solve return 0 and letting the worker
continue. -/
theorem path_cap_exits_process :
    pathRun 2 (fun _ => some 1) 1 = PathOut.exited := by decide

/-! ## Delta decoding of edge nonces in the bucket records -/

/-- `2 ^ 32`, the modulus of the `u32` arithmetic. -/
def M32 : Nat := 2 ^ 32

/-- The lag window `mask >> 2` (one quarter of the representable delta
range) used by the delta decoders. -/
def lagOf (B : Nat) : Nat := (2 ^ B - 1) >>> 2

/-- One update of the delta decoder, from `edgetrimmer::genVnodes1` /
`genVnodes2` (and the trim rounds): `edge += (((pref - edge + lag) & mask)
- lag)` in wrapping `u32` arithmetic, where `pref` is the stored low-`B`-bit
record field and `mask = 2^B - 1`. -/
def deltaDecodeStep (B lag edge pref : Nat) : Nat :=
  let t1 := (pref % M32 + (M32 - edge % M32) + lag % M32) % M32
  let t2 := t1 % 2 ^ B
  let t3 := (t2 + (M32 - lag % M32)) % M32
  (edge + t3) % M32

/-- The decoder run over a stream of stored record fields, starting from the
running `edge` value `e0`. -/
def deltaDecodeStream (B lag e0 : Nat) : List Nat → List Nat
  | [] => []
  | p :: ps =>
    let e1 := deltaDecodeStep B lag e0 p
    e1 :: deltaDecodeStream B lag e1 ps

theorem deltaDecodeStep_exact (B lag e n : Nat) (hB : B ≤ 32)
    (hlag : lag < 2 ^ B) (hen : e ≤ n) (hn : n < M32)
    (hgap : n - e + lag < 2 ^ B) :
    deltaDecodeStep B lag e (n % 2 ^ B) = n := by
  have hKM : (2 : Nat) ^ B ∣ M32 := by
    simpa [M32] using pow_dvd_pow 2 hB
  have he32 : e < M32 := lt_of_le_of_lt hen hn
  have hlag32 : lag < M32 := lt_of_lt_of_le hlag (Nat.le_of_dvd (by norm_num [M32]) hKM)
  have hemod : e % M32 = e := Nat.mod_eq_of_lt he32
  have hlagmod : lag % M32 = lag := Nat.mod_eq_of_lt hlag32
  obtain ⟨Q, hQ⟩ := hKM
  set d := n - e with hd
  have hnd : n = e + d := by omega
  simp only [deltaDecodeStep, hemod, hlagmod]
  have ht2 : ((n % 2 ^ B) % M32 + (M32 - e) + lag) % M32 % 2 ^ B = d + lag := by
    rw [Nat.mod_mod_of_dvd _ ⟨Q, hQ⟩]
    have hsmall : n % 2 ^ B < M32 :=
      lt_of_lt_of_le (Nat.mod_lt _ (Nat.pos_pow_of_pos B (by norm_num)))
        (Nat.le_of_dvd (by norm_num [M32]) ⟨Q, hQ⟩)
    rw [Nat.mod_eq_of_lt hsmall, Nat.add_assoc, Nat.mod_add_mod]
    have harith : n + (M32 - e + lag) = d + lag + 2 ^ B * Q := by
      have := hQ
      omega
    rw [harith, Nat.add_mul_mod_self_left, Nat.mod_eq_of_lt hgap]
  rw [ht2]
  have ht3 : (d + lag + (M32 - lag)) % M32 = d := by
    have harith : d + lag + (M32 - lag) = d + M32 := by omega
    rw [harith, Nat.add_mod_right, Nat.mod_eq_of_lt (by omega)]
  rw [ht3, Nat.mod_eq_of_lt (by omega)]
  omega

/-- C4: delta decoding with the lag window `L = mask >> 2` is a left inverse
of delta encoding: for every strictly increasing nonce stream (starting from
the decoder's initial running value `e0`) whose gaps between consecutive
values are all smaller than `2^B - L`, running the decoder update over the
stored low-`B`-bit record fields reproduces the original nonce values
exactly. -/
theorem delta_decode_round_trip (B e0 : Nat) (ns : List Nat) (hB : B ≤ 32)
    (he0 : e0 < M32) (hns : ∀ n ∈ ns, n < M32)
    (hchain : List.Chain (fun a b => a < b ∧ b - a < 2 ^ B - lagOf B) e0 ns) :
    deltaDecodeStream B (lagOf B) e0 (ns.map (· % 2 ^ B)) = ns := by
  have hlag : lagOf B < 2 ^ B := by
    have hpos : 0 < (2 : Nat) ^ B := Nat.pos_pow_of_pos B (by norm_num)
    simp only [lagOf, Nat.shiftRight_eq_div_pow]
    omega
  induction ns generalizing e0 with
  | nil => rfl
  | cons n ns ih =>
      rcases hchain with _ | ⟨⟨hlt, hgap⟩, hchain⟩
      have hn32 : n < M32 := hns n (by simp)
      have hstep : deltaDecodeStep B (lagOf B) e0 (n % 2 ^ B) = n :=
        deltaDecodeStep_exact B (lagOf B) e0 n hB hlag (Nat.le_of_lt hlt) hn32
          (by omega)
      simp only [List.map_cons, deltaDecodeStream, hstep, List.cons.injEq, true_and]
      exact ih n hn32 (fun m hm => hns m (by simp [hm])) hchain

/-- Witness for C4: a concrete three-element stream over `B = 18` bits whose
second and third stored fields wrap, decoded back exactly. -/
theorem delta_decode_round_trip_witness :
    deltaDecodeStream 18 (lagOf 18) 0
      ([150000, 300000, 450000].map (· % 2 ^ 18)) = [150000, 300000, 450000] :=
  delta_decode_round_trip 18 0 [150000, 300000, 450000] (by norm_num)
    (by norm_num [M32]) (by decide)
    (by
      simp only [List.chain_cons, List.Chain.nil, and_true]
      norm_num [lagOf, Nat.shiftRight_eq_div_pow])

/-! ## The two-bit degree bitmap `twice_set` -/

/-- `twice_set::reset`: every 32-bit word of the bitmap is zeroed. -/
def twiceReset : Nat → Nat := fun _ => 0

/-- `twice_set::set(u)`, sequentially executed: the first atomic OR writes
the low bit of slot `u` and returns the old word; if the old word had the
low bit but not the high bit, a second atomic OR writes the high bit. -/
def twiceSet (bits : Nat → Nat) (u : Nat) : Nat → Nat :=
  let idx := u / 16
  let bit := (1 : Nat) <<< (2 * (u % 16))
  let bit2 := bit <<< 1
  let old := bits idx
  fun w =>
    if w = idx then
      if old &&& (bit2 ||| bit) = bit then old ||| bit ||| bit2
      else old ||| bit
    else bits w

/-- `twice_set::test(u)`: the high bit of the 2-bit slot of `u`. -/
def twiceTest (bits : Nat → Nat) (u : Nat) : Nat :=
  (bits (u / 16) >>> (2 * (u % 16))) &&& 2

/-- A series of sequential `set` calls starting from `reset()`. -/
def twiceRun (zs : List Nat) : Nat → Nat := zs.foldl twiceSet twiceReset

/-- The intended reading of one bit of the bitmap: position `p` of word `w`
belongs to slot `16*w + p/2`; the even bit says "seen at least once", the odd
bit "seen at least twice".  Positions `≥ 32` do not exist in a `u32` word. -/
def bitAt (c p : Nat) : Bool :=
  decide (p < 32) && (if p % 2 = 0 then decide (1 ≤ c) else decide (2 ≤ c))

theorem shiftLeft_one_eq (k : Nat) : (1 : Nat) <<< k = 2 ^ k := by
  simp [Nat.shiftLeft_eq]

theorem two_pow_shiftLeft_one (k : Nat) : (2 ^ k : Nat) <<< 1 = 2 ^ (k + 1) := by
  simp [Nat.shiftLeft_eq, pow_succ]

theorem and_mask_eq_bit_iff (old s : Nat) :
    old &&& (2 ^ (s + 1) ||| 2 ^ s) = 2 ^ s ↔
      old.testBit s = true ∧ old.testBit (s + 1) = false := by
  constructor
  · intro h
    constructor
    · have hs := congrArg (Nat.testBit · s) h
      simpa [Nat.testBit_and, Nat.testBit_or, Nat.testBit_two_pow] using hs
    · have hs := congrArg (Nat.testBit · (s + 1)) h
      simpa [Nat.testBit_and, Nat.testBit_or, Nat.testBit_two_pow] using hs
  · rintro ⟨h1, h2⟩
    apply Nat.eq_of_testBit_eq
    intro i
    simp only [Nat.testBit_and, Nat.testBit_or, Nat.testBit_two_pow]
    by_cases hi : s = i
    · subst hi; simp [h1]
    · by_cases hi2 : s + 1 = i
      · subst hi2; simp [h2]
      · simp [hi, hi2]

theorem bitAt_even (c k : Nat) (hk : k < 16) : bitAt c (2 * k) = decide (1 ≤ c) := by
  have h1 : 2 * k < 32 := by omega
  have h2 : (2 * k) % 2 = 0 := by omega
  simp [bitAt, h1, h2]

theorem bitAt_odd (c k : Nat) (hk : k < 16) : bitAt c (2 * k + 1) = decide (2 ≤ c) := by
  have h1 : 2 * k + 1 < 32 := by omega
  have h2 : (2 * k + 1) % 2 = 1 := by omega
  simp [bitAt, h1, h2]

theorem twiceSet_testBit_inv (bits : Nat → Nat) (cnt : Nat → Nat)
    (hinv : ∀ w p, (bits w).testBit p = bitAt (cnt (16 * w + p / 2)) p) (z : Nat) :
    ∀ w p, ((twiceSet bits z) w).testBit p =
      bitAt ((if 16 * w + p / 2 = z then cnt (16 * w + p / 2) + 1
              else cnt (16 * w + p / 2))) p := by
  intro w p
  have hdm : 16 * (z / 16) + z % 16 = z := Nat.div_add_mod z 16
  have hmlt : z % 16 < 16 := Nat.mod_lt z (by norm_num)
  have hhalf0 : 2 * (z % 16) / 2 = z % 16 := by omega
  have hhalf1 : (2 * (z % 16) + 1) / 2 = z % 16 := by omega
  have hslot_s : 16 * (z / 16) + 2 * (z % 16) / 2 = z := by rw [hhalf0]; exact hdm
  have hslot_s1 : 16 * (z / 16) + (2 * (z % 16) + 1) / 2 = z := by
    rw [hhalf1]; exact hdm
  by_cases hw : w = z / 16
  · subst hw
    have hbs : (bits (z / 16)).testBit (2 * (z % 16)) = decide (1 ≤ cnt z) := by
      rw [hinv, hslot_s, bitAt_even _ _ hmlt]
    have hbs1 : (bits (z / 16)).testBit (2 * (z % 16) + 1) = decide (2 ≤ cnt z) := by
      rw [hinv, hslot_s1, bitAt_odd _ _ hmlt]
    simp only [twiceSet, shiftLeft_one_eq, two_pow_shiftLeft_one, if_pos rfl]
    by_cases hps : p = 2 * (z % 16)
    · subst hps
      rw [hslot_s, if_pos rfl, bitAt_even _ _ hmlt]
      by_cases hcond : bits (z / 16) &&&
          (2 ^ (2 * (z % 16) + 1) ||| 2 ^ (2 * (z % 16))) = 2 ^ (2 * (z % 16)) <;>
        simp [hcond, Nat.testBit_or, Nat.testBit_two_pow]
    · by_cases hps1 : p = 2 * (z % 16) + 1
      · subst hps1
        rw [hslot_s1, if_pos rfl, bitAt_odd _ _ hmlt]
        by_cases hcond : bits (z / 16) &&&
            (2 ^ (2 * (z % 16) + 1) ||| 2 ^ (2 * (z % 16))) = 2 ^ (2 * (z % 16))
        · obtain ⟨hc1, hc2⟩ := (and_mask_eq_bit_iff _ _).mp hcond
          have hcnt1 : cnt z = 1 := by
            rw [hbs] at hc1
            rw [hbs1] at hc2
            simp only [decide_eq_true_eq] at hc1
            simp only [decide_eq_false_iff_not] at hc2
            omega
          simp [hcond, Nat.testBit_or, Nat.testBit_two_pow, hcnt1]
        · have hcnt_ne1 : cnt z ≠ 1 := by
            intro hc1
            exact hcond ((and_mask_eq_bit_iff _ _).mpr
              ⟨by rw [hbs]; simp [hc1], by rw [hbs1]; simp [hc1]⟩)
          rw [if_neg hcond]
          simp only [Nat.testBit_or, Nat.testBit_two_pow, hbs1]
          have hplus : (2 ≤ cnt z) = (2 ≤ cnt z + 1) := by
            apply propext; constructor <;> intro <;> omega
          simp [hplus]
      · have hslotne : ¬ 16 * (z / 16) + p / 2 = z := by
          intro hzz
          have hp2 : p / 2 = z % 16 := by omega
          have hpdm : 2 * (p / 2) + p % 2 = p := by omega
          have : p % 2 < 2 := Nat.mod_lt p (by norm_num)
          omega
        rw [if_neg hslotne]
        have hgoal := hinv (z / 16) p
        have hpsa : ¬ 2 * (z % 16) = p := fun h => hps h.symm
        have hps1a : ¬ 2 * (z % 16) + 1 = p := fun h => hps1 h.symm
        by_cases hcond : bits (z / 16) &&&
            (2 ^ (2 * (z % 16) + 1) ||| 2 ^ (2 * (z % 16))) = 2 ^ (2 * (z % 16)) <;>
          simp [hcond, Nat.testBit_or, Nat.testBit_two_pow, hgoal, hpsa, hps1a]
  · simp only [twiceSet, if_neg hw]
    by_cases hp32 : p < 32
    · have hslotne : ¬ 16 * w + p / 2 = z := by
        intro hzz
        have : p / 2 < 16 := by omega
        omega
      rw [if_neg hslotne]
      exact hinv w p
    · have hfalse : ∀ c, bitAt c p = false := by
        intro c
        simp [bitAt, hp32]
      rw [hfalse, hinv w p, hfalse]

theorem twiceRun_testBit (zs : List Nat) : ∀ (bits cnt : Nat → Nat),
    (∀ w p, (bits w).testBit p = bitAt (cnt (16 * w + p / 2)) p) →
    ∀ w p, ((zs.foldl twiceSet bits) w).testBit p =
      bitAt (cnt (16 * w + p / 2) + zs.count (16 * w + p / 2)) p := by
  induction zs with
  | nil =>
      intro bits cnt h w p
      simpa using h w p
  | cons z zs ih =>
      intro bits cnt h w p
      have hstep := twiceSet_testBit_inv bits cnt h z
      have hrec := ih (twiceSet bits z) (fun x => if x = z then cnt x + 1 else cnt x)
        hstep w p
      rw [List.foldl_cons, hrec]
      congr 1
      by_cases hsz : 16 * w + p / 2 = z <;>
        simp [List.count_cons, hsz] <;> omega

/-- C5: the two-bit degree bitmap implements the state machine
`seen ∈ {0, 1, ≥ 2}`: after `reset()`, for every sequentially executed series
of `set` calls, `test(z)` is nonzero if and only if `set(z)` was called at
least twice; and a single `set(z)` on any bitmap state leaves `test(z')`
unchanged for every other index `z'`. -/
theorem twice_set_state_machine :
    (∀ (zs : List Nat) (z : Nat),
      twiceTest (twiceRun zs) z ≠ 0 ↔ 2 ≤ zs.count z) ∧
    (∀ (bits : Nat → Nat) (z z' : Nat), z' ≠ z →
      twiceTest (twiceSet bits z) z' = twiceTest bits z') := by
  have htest : ∀ (bits : Nat → Nat) (z : Nat),
      twiceTest bits z = ((bits (z / 16)).testBit (2 * (z % 16) + 1)).toNat * 2 := by
    intro bits z
    unfold twiceTest
    rw [show (2:Nat) = 2 ^ 1 by norm_num, Nat.and_two_pow, Nat.testBit_shiftRight]
  constructor
  · intro zs z
    have h0 : ∀ w p, (twiceReset w).testBit p =
        bitAt ((fun _ => (0 : Nat)) (16 * w + p / 2)) p := by
      intro w p
      simp [twiceReset, bitAt, Nat.zero_testBit]
    have hrun := twiceRun_testBit zs twiceReset (fun _ => 0) h0 (z / 16)
      (2 * (z % 16) + 1)
    have hmlt : z % 16 < 16 := Nat.mod_lt z (by norm_num)
    have hslot : 16 * (z / 16) + (2 * (z % 16) + 1) / 2 = z := by
      have : (2 * (z % 16) + 1) / 2 = z % 16 := by omega
      rw [this]
      exact Nat.div_add_mod z 16
    rw [hslot] at hrun
    rw [htest, twiceRun, hrun, Nat.zero_add, bitAt_odd _ _ hmlt]
    by_cases h2 : 2 ≤ zs.count z <;> simp [h2]
  · intro bits z z' hne
    rw [htest, htest]
    by_cases hw : z' / 16 = z / 16
    · have hne16 : ¬ (2 * (z % 16) = 2 * (z' % 16) + 1) := by omega
      have hne16' : ¬ (2 * (z % 16) + 1 = 2 * (z' % 16) + 1) := by
        intro h
        have hmm : z % 16 = z' % 16 := by omega
        have hd1 : 16 * (z / 16) + z % 16 = z := Nat.div_add_mod z 16
        have hd2 : 16 * (z' / 16) + z' % 16 = z' := Nat.div_add_mod z' 16
        apply hne
        omega
      simp only [twiceSet, shiftLeft_one_eq, two_pow_shiftLeft_one, hw, if_pos rfl]
      by_cases hcond : bits (z / 16) &&&
          (2 ^ (2 * (z % 16) + 1) ||| 2 ^ (2 * (z % 16))) = 2 ^ (2 * (z % 16)) <;>
        simp [hcond, Nat.testBit_or, Nat.testBit_two_pow, hw, hne16, hne16']
    · simp only [twiceSet, if_neg hw]

/-- Witness for C5: two `set(5)` calls make `test(5)` nonzero (count 2), and
`set(3)` does not disturb `test(7)`. -/
theorem twice_set_state_machine_witness :
    (twiceTest (twiceRun [5, 5]) 5 ≠ 0 ↔ 2 ≤ [5, 5].count 5) ∧
    twiceTest (twiceSet twiceReset 3) 7 = twiceTest twiceReset 7 :=
  ⟨twice_set_state_machine.1 [5, 5] 5,
   twice_set_state_machine.2 twiceReset 3 7 (by decide)⟩

/-! ## Cycle finder: the length of a closing cycle -/

/-- The array collected by `solver_ctx::path`: it starts at the queried node
and follows the cuckoo table `c` (`none` models `CUCKOO_NIL`) to the root. -/
inductive IsPath (c : Nat → Option Nat) : Nat → List Nat → Prop where
  | root (u : Nat) : c u = none → IsPath c u [u]
  | step (u w : Nat) (l : List Nat) : c u = some w → IsPath c w l →
      IsPath c u (u :: l)

/-- The tail-trimming loop of `findcycles`:
`for (nu -= min, nv -= min; us[nu] != vs[nv]; nu++, nv++) ;`. -/
def trimLoop (us vs : List Nat) : Nat → Nat → Nat → Nat × Nat
  | 0, nu, nv => (nu, nv)
  | fuel + 1, nu, nv =>
    if us.getD nu 0 = vs.getD nv 0 then (nu, nv)
    else trimLoop us vs fuel (nu + 1) (nv + 1)

/-- The cycle length computed by `findcycles` at a closing edge: with the two
path arrays `us`, `vs` (the code's lengths are `nu = us.length - 1` and
`nv = vs.length - 1`), subtract `min` from both, run the trimming loop, and
return `nu + nv + 1`. -/
def cycleLen (us vs : List Nat) : Nat :=
  let nu := us.length - 1
  let nv := vs.length - 1
  let m := min nu nv
  let r := trimLoop us vs (m + 1) (nu - m) (nv - m)
  r.1 + r.2 + 1

/-- `findcycles` records the cycle as a solution iff `len == PROOFSIZE`. -/
def recordsCycle (us vs : List Nat) : Bool := cycleLen us vs == PROOFSIZE

/-- The node at distance `k` from the end of a path array. -/
def endIdx (l : List Nat) (k : Nat) : Nat := l.getD (l.length - 1 - k) 0

/-- Length of the longest common head of two lists. -/
def commonHeadLen : List Nat → List Nat → Nat
  | a :: as, b :: bs => if a = b then commonHeadLen as bs + 1 else 0
  | _, _ => 0

/-- Length of the longest equal tail of two lists. -/
def commonTailLen (us vs : List Nat) : Nat :=
  commonHeadLen us.reverse vs.reverse

theorem IsPath.ne_nil {c : Nat → Option Nat} {u : Nat} {l : List Nat}
    (h : IsPath c u l) : l ≠ [] := by
  cases h <;> simp

theorem IsPath.headD {c : Nat → Option Nat} {u : Nat} {l : List Nat}
    (h : IsPath c u l) : l.getD 0 0 = u := by
  cases h <;> rfl

theorem IsPath.succ_getD {c : Nat → Option Nat} {u : Nat} {l : List Nat}
    (h : IsPath c u l) :
    ∀ i, i + 1 < l.length → c (l.getD i 0) = some (l.getD (i + 1) 0) := by
  induction h with
  | root x hc =>
      intro i hi
      simp at hi
  | step x w tl hc hp ih =>
      intro i hi
      cases i with
      | zero =>
          simp only [List.getD_cons_zero, List.getD_cons_succ]
          rw [hp.headD, hc]
      | succ i =>
          simp only [List.getD_cons_succ]
          exact ih i (by simpa using hi)

theorem IsPath.succ_endIdx {c : Nat → Option Nat} {u : Nat} {l : List Nat}
    (h : IsPath c u l) :
    ∀ k, k + 1 < l.length → c (endIdx l (k + 1)) = some (endIdx l k) := by
  intro k hk
  have h1 := h.succ_getD (l.length - 2 - k) (by omega)
  have e1 : l.length - 2 - k + 1 = l.length - 1 - k := by omega
  have e2 : l.length - 2 - k = l.length - 1 - (k + 1) := by omega
  rw [e1, e2] at h1
  exact h1

theorem agree_down {c : Nat → Option Nat} {u0 v0 : Nat} {us vs : List Nat}
    (hu : IsPath c u0 us) (hv : IsPath c v0 vs) :
    ∀ K, K + 1 < us.length → K + 1 < vs.length →
      endIdx us (K + 1) = endIdx vs (K + 1) → endIdx us K = endIdx vs K := by
  intro K hKu hKv hag
  have h1 := hu.succ_endIdx K hKu
  have h2 := hv.succ_endIdx K hKv
  rw [hag] at h1
  rw [h1] at h2
  exact Option.some.inj h2

theorem agree_of_agree_ge {c : Nat → Option Nat} {u0 v0 : Nat}
    {us vs : List Nat} (hu : IsPath c u0 us) (hv : IsPath c v0 vs) :
    ∀ (d K : Nat), K < us.length → K < vs.length →
      endIdx us K = endIdx vs K → endIdx us (K - d) = endIdx vs (K - d) := by
  intro d
  induction d with
  | zero =>
      intro K _ _ h
      simpa using h
  | succ d ih =>
      intro K hKu hKv hag
      have hd := ih K hKu hKv hag
      rcases Nat.eq_zero_or_pos (K - d) with h0 | hpos
      · have e : K - (d + 1) = K - d := by omega
        rw [e]
        exact hd
      · obtain ⟨j, hj⟩ : ∃ j, K - d = j + 1 := ⟨K - d - 1, by omega⟩
        have hj1 : K - (d + 1) = j := by omega
        rw [hj] at hd
        rw [hj1]
        exact agree_down hu hv j (by omega) (by omega) hd

theorem commonHeadLen_le_left : ∀ a b : List Nat, commonHeadLen a b ≤ a.length := by
  intro a
  induction a with
  | nil =>
      intro b
      cases b <;> simp [commonHeadLen]
  | cons x as ih =>
      intro b
      cases b with
      | nil => simp [commonHeadLen]
      | cons y bs =>
          by_cases h : x = y
          · have := ih bs
            simp only [commonHeadLen, if_pos h, List.length_cons]
            omega
          · simp [commonHeadLen, h]

theorem commonHeadLen_le_right : ∀ a b : List Nat, commonHeadLen a b ≤ b.length := by
  intro a
  induction a with
  | nil =>
      intro b
      cases b <;> simp [commonHeadLen]
  | cons x as ih =>
      intro b
      cases b with
      | nil => simp [commonHeadLen]
      | cons y bs =>
          by_cases h : x = y
          · have := ih bs
            simp only [commonHeadLen, if_pos h, List.length_cons]
            omega
          · simp [commonHeadLen, h]

theorem commonHeadLen_agree : ∀ (a b : List Nat) (k : Nat),
    k < commonHeadLen a b → a.getD k 0 = b.getD k 0 := by
  intro a
  induction a with
  | nil =>
      intro b k h
      cases b <;> simp [commonHeadLen] at h
  | cons x as ih =>
      intro b k h
      cases b with
      | nil => simp [commonHeadLen] at h
      | cons y bs =>
          by_cases hxy : x = y
          · cases k with
            | zero => simpa using hxy
            | succ k =>
                simp only [List.getD_cons_succ]
                apply ih
                simp only [commonHeadLen, if_pos hxy] at h
                omega
          · simp [commonHeadLen, hxy] at h

theorem commonHeadLen_max : ∀ a b : List Nat,
    commonHeadLen a b < a.length → commonHeadLen a b < b.length →
    a.getD (commonHeadLen a b) 0 ≠ b.getD (commonHeadLen a b) 0 := by
  intro a
  induction a with
  | nil =>
      intro b h1 _
      simp [commonHeadLen] at h1
  | cons x as ih =>
      intro b h1 h2
      cases b with
      | nil => simp [commonHeadLen] at h2
      | cons y bs =>
          by_cases hxy : x = y
          · simp only [commonHeadLen, if_pos hxy, List.length_cons] at h1 h2 ⊢
            simp only [List.getD_cons_succ]
            exact ih bs (by omega) (by omega)
          · simp only [commonHeadLen, if_neg hxy]
            simpa using hxy

theorem commonHeadLen_pos (a b : List Nat) (ha : a ≠ []) (hb : b ≠ [])
    (h : a.getD 0 0 = b.getD 0 0) : 1 ≤ commonHeadLen a b := by
  cases a with
  | nil => simp at ha
  | cons x as =>
      cases b with
      | nil => simp at hb
      | cons y bs =>
          simp only [List.getD_cons_zero] at h
          simp [commonHeadLen, h]

theorem getD_reverse (l : List Nat) (k : Nat) (hk : k < l.length) :
    l.reverse.getD k 0 = endIdx l k := by
  unfold endIdx
  rw [List.getD_eq_getElem _ _ (by simpa using hk),
    List.getD_eq_getElem _ _ (by omega)]
  exact List.getElem_reverse ..

theorem trimLoop_finds (us vs : List Nat) :
    ∀ (T fuel nu nv : Nat), T < fuel →
      (∀ t, t < T → us.getD (nu + t) 0 ≠ vs.getD (nv + t) 0) →
      us.getD (nu + T) 0 = vs.getD (nv + T) 0 →
      trimLoop us vs fuel nu nv = (nu + T, nv + T) := by
  intro T
  induction T with
  | zero =>
      intro fuel nu nv hfuel _ hag
      cases fuel with
      | zero => omega
      | succ f =>
          simp only [trimLoop]
          rw [if_pos (by simpa using hag)]
          simp
  | succ T ih =>
      intro fuel nu nv hfuel hne hag
      cases fuel with
      | zero => omega
      | succ f =>
          simp only [trimLoop]
          rw [if_neg (by simpa using hne 0 (by omega))]
          have harg : ∀ t, t < T →
              us.getD (nu + 1 + t) 0 ≠ vs.getD (nv + 1 + t) 0 := by
            intro t ht
            have h := hne (t + 1) (by omega)
            have e1 : nu + (t + 1) = nu + 1 + t := by omega
            have e2 : nv + (t + 1) = nv + 1 + t := by omega
            rw [e1, e2] at h
            exact h
          have hagT : us.getD (nu + 1 + T) 0 = vs.getD (nv + 1 + T) 0 := by
            have e1 : nu + (T + 1) = nu + 1 + T := by omega
            have e2 : nv + (T + 1) = nv + 1 + T := by omega
            rw [e1, e2] at hag
            exact hag
          have hrec := ih f (nu + 1) (nv + 1) (by omega) harg hagT
          rw [hrec]
          have e1 : nu + 1 + T = nu + (T + 1) := by omega
          have e2 : nv + 1 + T = nv + (T + 1) := by omega
          rw [e1, e2]

/-- C2: in `findcycles`, for a trimmed edge whose two cuckoo-table paths
`us = path(u0)` and `vs = path(v0)` end at the same root, the computed cycle
length is `nu + nv + 1` where `nu`, `nv` are the path lengths that remain
after the equal tails of the two paths (of length `commonTailLen us vs`)
have been trimmed, and the cycle is recorded as a solution if and only if
this length equals `PROOFSIZE = 42`. -/
theorem findcycles_cycle_length (c : Nat → Option Nat) (u0 v0 : Nat)
    (us vs : List Nat) (hu : IsPath c u0 us) (hv : IsPath c v0 vs)
    (hroot : us.getLast? = vs.getLast?) :
    cycleLen us vs =
      (us.length - commonTailLen us vs) + (vs.length - commonTailLen us vs) + 1 ∧
    (recordsCycle us vs = true ↔ cycleLen us vs = PROOFSIZE) := by
  have hLu : 1 ≤ us.length := List.length_pos.mpr hu.ne_nil
  have hLv : 1 ≤ vs.length := List.length_pos.mpr hv.ne_nil
  have hpu : commonTailLen us vs ≤ us.length := by
    have := commonHeadLen_le_left us.reverse vs.reverse
    simpa [commonTailLen] using this
  have hpv : commonTailLen us vs ≤ vs.length := by
    have := commonHeadLen_le_right us.reverse vs.reverse
    simpa [commonTailLen] using this
  have hroot0 : endIdx us 0 = endIdx vs 0 := by
    unfold endIdx
    simp only [Nat.sub_zero]
    rw [List.getD_eq_getElem?_getD, List.getD_eq_getElem?_getD,
      ← List.getLast?_eq_getElem?, ← List.getLast?_eq_getElem?, hroot]
  have hppos : 1 ≤ commonTailLen us vs := by
    apply commonHeadLen_pos
    · simpa using hu.ne_nil
    · simpa using hv.ne_nil
    · rw [getD_reverse us 0 (by omega), getD_reverse vs 0 (by omega)]
      exact hroot0
  have hagree_lt : ∀ k, k < commonTailLen us vs → endIdx us k = endIdx vs k := by
    intro k hk
    have h := commonHeadLen_agree us.reverse vs.reverse k hk
    rw [getD_reverse us k (by omega), getD_reverse vs k (by omega)] at h
    exact h
  have hagree_ge : ∀ k, commonTailLen us vs ≤ k → k < us.length →
      k < vs.length → endIdx us k ≠ endIdx vs k := by
    intro k hpk hku hkv hag
    have h := agree_of_agree_ge hu hv (k - commonTailLen us vs) k hku hkv hag
    have e : k - (k - commonTailLen us vs) = commonTailLen us vs := by omega
    rw [e] at h
    have hmax := commonHeadLen_max us.reverse vs.reverse
      (by simpa [commonTailLen] using lt_of_le_of_lt hpk hku)
      (by simpa [commonTailLen] using lt_of_le_of_lt hpk hkv)
    have hct : commonHeadLen us.reverse vs.reverse = commonTailLen us vs := rfl
    rw [hct] at hmax
    rw [getD_reverse us (commonTailLen us vs) (by omega),
      getD_reverse vs (commonTailLen us vs) (by omega)] at hmax
    exact hmax h
  have hne : ∀ t, t < min (us.length - 1) (vs.length - 1) + 1 - commonTailLen us vs →
      us.getD (us.length - 1 - min (us.length - 1) (vs.length - 1) + t) 0 ≠
      vs.getD (vs.length - 1 - min (us.length - 1) (vs.length - 1) + t) 0 := by
    intro t ht
    have e1 : us.length - 1 - min (us.length - 1) (vs.length - 1) + t =
        us.length - 1 - (min (us.length - 1) (vs.length - 1) - t) := by omega
    have e2 : vs.length - 1 - min (us.length - 1) (vs.length - 1) + t =
        vs.length - 1 - (min (us.length - 1) (vs.length - 1) - t) := by omega
    rw [e1, e2]
    exact hagree_ge (min (us.length - 1) (vs.length - 1) - t) (by omega)
      (by omega) (by omega)
  have hag : us.getD (us.length - 1 - min (us.length - 1) (vs.length - 1) +
        (min (us.length - 1) (vs.length - 1) + 1 - commonTailLen us vs)) 0 =
      vs.getD (vs.length - 1 - min (us.length - 1) (vs.length - 1) +
        (min (us.length - 1) (vs.length - 1) + 1 - commonTailLen us vs)) 0 := by
    have e1 : us.length - 1 - min (us.length - 1) (vs.length - 1) +
        (min (us.length - 1) (vs.length - 1) + 1 - commonTailLen us vs) =
        us.length - 1 - (commonTailLen us vs - 1) := by omega
    have e2 : vs.length - 1 - min (us.length - 1) (vs.length - 1) +
        (min (us.length - 1) (vs.length - 1) + 1 - commonTailLen us vs) =
        vs.length - 1 - (commonTailLen us vs - 1) := by omega
    rw [e1, e2]
    exact hagree_lt (commonTailLen us vs - 1) (by omega)
  have hfind := trimLoop_finds us vs
    (min (us.length - 1) (vs.length - 1) + 1 - commonTailLen us vs)
    (min (us.length - 1) (vs.length - 1) + 1)
    (us.length - 1 - min (us.length - 1) (vs.length - 1))
    (vs.length - 1 - min (us.length - 1) (vs.length - 1))
    (by omega) hne hag
  have e1 : us.length - 1 - min (us.length - 1) (vs.length - 1) +
      (min (us.length - 1) (vs.length - 1) + 1 - commonTailLen us vs) =
      us.length - commonTailLen us vs := by omega
  have e2 : vs.length - 1 - min (us.length - 1) (vs.length - 1) +
      (min (us.length - 1) (vs.length - 1) + 1 - commonTailLen us vs) =
      vs.length - commonTailLen us vs := by omega
  rw [e1, e2] at hfind
  have hcl : cycleLen us vs =
      (us.length - commonTailLen us vs) + (vs.length - commonTailLen us vs) + 1 := by
    simp only [cycleLen]
    rw [hfind]
  exact ⟨hcl, by simp [recordsCycle]⟩

/-- Witness for C2: the cuckoo table with the single link `3 ↦ 2` and root
`2`, paths `[2]` and `[3, 2]` ending at the same root. -/
theorem findcycles_cycle_length_witness :
    cycleLen [2] [3, 2] =
      ([2].length - commonTailLen [2] [3, 2]) +
      ([3, 2].length - commonTailLen [2] [3, 2]) + 1 ∧
    (recordsCycle [2] [3, 2] = true ↔ cycleLen [2] [3, 2] = PROOFSIZE) :=
  findcycles_cycle_length (fun n => if n = 3 then some 2 else none) 2 3 [2] [3, 2]
    (IsPath.root 2 (by simp))
    (IsPath.step 3 2 [2] (by simp) (IsPath.root 2 (by simp)))
    (by simp)

/-! ## Nonce recovery (`recoveredges1`) and the sorted solution -/

/-- The endpoint pair `(dipnode(e,0), dipnode(e,1))` of edge nonce `e`. -/
def dipPair (eb : Nat) (k : SipKeys) (e : Nat) : Nat × Nat :=
  (dipnode eb k e 0, dipnode eb k e 1)

/-- The `uxymap` bitmap of `recoveredges1`: the set of `u >> ZBITS` prefixes
of the `PROOFSIZE` recovered u-side cycle nodes (membership in the atomic-OR
bitmap is modelled as list membership). -/
def uxymapContains (zbits : Nat) (uv : List (Nat × Nat)) (uxy : Nat) : Bool :=
  (uv.map (fun q => q.1 >>> zbits)).contains uxy

/-- The body of `recoveredges1` for one edge nonce: if the `u`-endpoint's
`XY` prefix is in the bitmap, write `edge` into `sol[j]` for every cycle slot
`j` whose `(u, v)` pair matches. -/
def solStep (eb zbits : Nat) (k : SipKeys) (uv : List (Nat × Nat))
    (sol : List Nat) (edge : Nat) : List Nat :=
  let u := dipnode eb k edge 0
  if uxymapContains zbits uv (u >>> zbits) then
    (List.range PROOFSIZE).foldl
      (fun s j => if uv.getD j (0, 0) = (u, dipnode eb k edge 1)
                  then s.set j edge else s) sol
  else sol

/-- `recoveredges1` run (sequentially) over all edge nonces in `[0, 2^E)`,
starting from the previous contents `sol0` of the device `sol` array. -/
def recoverSol (eb zbits : Nat) (k : SipKeys) (uv : List (Nat × Nat))
    (sol0 : List Nat) : List Nat :=
  (List.range (2 ^ eb)).foldl (solStep eb zbits k uv) sol0

/-- The `qsort(..., nonce_cmp)` at the end of `solver_ctx::solution`,
modelled as sorting ascending (see `nonce_cmp_agrees_with_le`). -/
def solutionNonces (eb zbits : Nat) (k : SipKeys) (uv : List (Nat × Nat))
    (sol0 : List Nat) : List Nat :=
  List.insertionSort (· ≤ ·) (recoverSol eb zbits k uv sol0)

/-- `nonce_cmp`: the C comparator computes `*(u32*)a - *(u32*)b` in `u32`
and converts the result to a signed `int`. -/
def nonce_cmp (a b : Nat) : Int :=
  let d := (a % M32 + (M32 - b % M32)) % M32
  if d < 2 ^ 31 then (d : Int) else (d : Int) - (M32 : Int)

/-- For nonces below `2^31` (all edge nonces, since `E < 31`), `nonce_cmp`
orders exactly like `≤` on `Nat`, so `qsort` with it sorts ascending. -/
theorem nonce_cmp_agrees_with_le (a b : Nat) (ha : a < 2 ^ 31) (hb : b < 2 ^ 31) :
    (nonce_cmp a b < 0 ↔ a < b) ∧ (nonce_cmp a b = 0 ↔ a = b) := by
  simp only [nonce_cmp, M32]
  have hma : a % 2 ^ 32 = a := Nat.mod_eq_of_lt (by omega)
  have hmb : b % 2 ^ 32 = b := Nat.mod_eq_of_lt (by omega)
  rw [hma, hmb]
  by_cases hab : b ≤ a
  · have hd : (a + (2 ^ 32 - b)) % 2 ^ 32 = a - b := by omega
    rw [hd]
    have : a - b < 2 ^ 31 := by omega
    rw [if_pos this]
    constructor
    · constructor
      · intro h
        omega
      · intro h
        omega
    · constructor
      · intro h
        omega
      · intro h
        omega
  · have hd : (a + (2 ^ 32 - b)) % 2 ^ 32 = a + 2 ^ 32 - b := by omega
    rw [hd]
    have : ¬ (a + 2 ^ 32 - b < 2 ^ 31) := by omega
    rw [if_neg this]
    constructor
    · constructor
      · intro _
        omega
      · intro _
        omega
    · constructor
      · intro h
        omega
      · intro h
        omega

theorem foldl_set_length (e : Nat) (P : Nat → Prop) [DecidablePred P] :
    ∀ (rs : List Nat) (sol : List Nat),
      (rs.foldl (fun s i => if P i then s.set i e else s) sol).length =
        sol.length := by
  intro rs
  induction rs with
  | nil => intro sol; rfl
  | cons r rs ih =>
      intro sol
      rw [List.foldl_cons, ih]
      by_cases h : P r <;> simp [h]

theorem foldl_set_getD (e : Nat) (P : Nat → Prop) [DecidablePred P] :
    ∀ (rs : List Nat) (sol : List Nat) (j : Nat), j < sol.length →
      (rs.foldl (fun s i => if P i then s.set i e else s) sol).getD j 0 =
        if j ∈ rs ∧ P j then e else sol.getD j 0 := by
  intro rs
  induction rs with
  | nil =>
      intro sol j hj
      simp
  | cons r rs ih =>
      intro sol j hj
      rw [List.foldl_cons]
      have hlen : (if P r then sol.set r e else sol).length = sol.length := by
        by_cases h : P r <;> simp [h]
      rw [ih _ j (by omega)]
      by_cases hmem : j ∈ rs ∧ P j
      · rw [if_pos hmem, if_pos ⟨by simp [hmem.1], hmem.2⟩]
      · rw [if_neg hmem]
        by_cases hjr : j = r
        · subst hjr
          by_cases hPj : P j
          · rw [if_pos hPj, if_pos ⟨by simp, hPj⟩]
            rw [List.getD_eq_getElem?_getD, List.getElem?_set_self hj]
            rfl
          · rw [if_neg hPj, if_neg (by
              intro hc
              exact hPj hc.2)]
        · have hcond : ¬ (j ∈ r :: rs ∧ P j) := by
            intro hc
            rcases List.mem_cons.mp hc.1 with h | h
            · exact hjr h
            · exact hmem ⟨h, hc.2⟩
          rw [if_neg hcond]
          by_cases hPr : P r
          · rw [if_pos hPr, List.getD_eq_getElem?_getD,
              List.getElem?_set_ne (fun h => hjr h.symm),
              ← List.getD_eq_getElem?_getD]
          · rw [if_neg hPr]

theorem solStep_length (eb zbits : Nat) (k : SipKeys) (uv : List (Nat × Nat))
    (sol : List Nat) (e : Nat) :
    (solStep eb zbits k uv sol e).length = sol.length := by
  simp only [solStep]
  by_cases h : uxymapContains zbits uv (dipnode eb k e 0 >>> zbits)
  · rw [if_pos h]
    exact foldl_set_length e _ _ sol
  · rw [if_neg h]

theorem solStep_getD (eb zbits : Nat) (k : SipKeys) (uv : List (Nat × Nat))
    (sol : List Nat) (e j : Nat) (hj : j < PROOFSIZE) (hsol : j < sol.length)
    (hlenuv : uv.length = PROOFSIZE) :
    (solStep eb zbits k uv sol e).getD j 0 =
      if uv.getD j (0, 0) = dipPair eb k e then e else sol.getD j 0 := by
  simp only [solStep, dipPair]
  by_cases hmap : uxymapContains zbits uv (dipnode eb k e 0 >>> zbits)
  · rw [if_pos hmap]
    rw [foldl_set_getD e
      (fun i => uv.getD i (0, 0) = (dipnode eb k e 0, dipnode eb k e 1))
      (List.range PROOFSIZE) sol j hsol]
    have hjr : j ∈ List.range PROOFSIZE := List.mem_range.mpr hj
    by_cases hP : uv.getD j (0, 0) = (dipnode eb k e 0, dipnode eb k e 1)
    · rw [if_pos ⟨hjr, hP⟩, if_pos hP]
    · rw [if_neg (fun hc => hP hc.2), if_neg hP]
  · rw [if_neg hmap]
    have hnomatch : ¬ uv.getD j (0, 0) = (dipnode eb k e 0, dipnode eb k e 1) := by
      intro hP
      apply hmap
      unfold uxymapContains
      apply List.elem_iff.mpr
      have hjlen : j < uv.length := by omega
      have hmem0 : uv.getD j (0, 0) ∈ uv := by
        rw [List.getD_eq_getElem _ _ hjlen]
        exact List.getElem_mem hjlen
      have hmem1 : (uv.getD j (0, 0)).1 >>> zbits ∈
          uv.map (fun q => q.1 >>> zbits) := List.mem_map_of_mem _ hmem0
      rw [hP] at hmem1
      exact hmem1
    rw [if_neg hnomatch]

theorem getLastD_cons (l : List Nat) : ∀ a d : Nat,
    (a :: l).getLast?.getD d = l.getLast?.getD a := by
  induction l with
  | nil =>
      intro a d
      rfl
  | cons b l ih =>
      intro a d
      rw [List.getLast?_cons_cons, ih b d, ih b a]

theorem recover_entries (eb zbits : Nat) (k : SipKeys) (uv : List (Nat × Nat))
    (hlenuv : uv.length = PROOFSIZE) :
    ∀ (L : List Nat) (sol : List Nat) (j : Nat), j < PROOFSIZE →
      sol.length = PROOFSIZE →
      (L.foldl (solStep eb zbits k uv) sol).getD j 0 =
        ((L.filter (fun e => uv.getD j (0, 0) = dipPair eb k e)).getLast?).getD
          (sol.getD j 0) := by
  intro L
  induction L with
  | nil =>
      intro sol j hj hsol
      rfl
  | cons e L ih =>
      intro sol j hj hsol
      rw [List.foldl_cons,
        ih (solStep eb zbits k uv sol e) j hj
          (by rw [solStep_length]; exact hsol),
        List.filter_cons]
      by_cases hP : uv.getD j (0, 0) = dipPair eb k e
      · rw [if_pos (by simpa using hP), getLastD_cons]
        congr 1
        rw [solStep_getD eb zbits k uv sol e j hj (by omega) hlenuv, if_pos hP]
      · rw [if_neg (by simpa using hP)]
        congr 1
        rw [solStep_getD eb zbits k uv sol e j hj (by omega) hlenuv, if_neg hP]

theorem recoverSol_length (eb zbits : Nat) (k : SipKeys) (uv : List (Nat × Nat))
    (sol0 : List Nat) :
    (recoverSol eb zbits k uv sol0).length = sol0.length := by
  unfold recoverSol
  generalize List.range (2 ^ eb) = L
  induction L generalizing sol0 with
  | nil => rfl
  | cons e L ih =>
      rw [List.foldl_cons, ih, solStep_length]

theorem recoverSol_entry (eb zbits : Nat) (k : SipKeys) (uv : List (Nat × Nat))
    (sol0 : List Nat) (hlenuv : uv.length = PROOFSIZE)
    (hsol0 : sol0.length = PROOFSIZE) (j : Nat) (hj : j < PROOFSIZE)
    (hmatch : ∃ e ∈ List.range (2 ^ eb), uv.getD j (0, 0) = dipPair eb k e) :
    uv.getD j (0, 0) = dipPair eb k ((recoverSol eb zbits k uv sol0).getD j 0) := by
  unfold recoverSol
  rw [recover_entries eb zbits k uv hlenuv _ sol0 j hj hsol0]
  obtain ⟨e, hemem, hP⟩ := hmatch
  have hmemf : e ∈ (List.range (2 ^ eb)).filter
      (fun x => uv.getD j (0, 0) = dipPair eb k x) :=
    List.mem_filter.mpr ⟨hemem, by simpa using hP⟩
  have hne := List.ne_nil_of_mem hmemf
  rw [List.getLast?_eq_getLast _ hne]
  have hlast := (List.mem_filter.mp (List.getLast_mem hne)).2
  rw [Option.getD_some]
  exact of_decide_eq_true hlast

/-- C7: whenever a 42-cycle is reported and recovery succeeds — the 42 cycle
node pairs are distinct (a simple cycle) and every slot is matched by some
edge nonce — the nonces written into the solution array and sorted by
`nonce_cmp` are pairwise distinct and strictly ascending. -/
theorem solution_nonces_strictly_ascending (eb zbits : Nat) (k : SipKeys)
    (uv : List (Nat × Nat)) (sol0 : List Nat)
    (hlenuv : uv.length = PROOFSIZE) (hsol0 : sol0.length = PROOFSIZE)
    (hnodup : uv.Nodup)
    (hmatch : ∀ j, j < PROOFSIZE → ∃ e ∈ List.range (2 ^ eb),
      uv.getD j (0, 0) = dipPair eb k e) :
    List.Sorted (· < ·) (solutionNonces eb zbits k uv sol0) ∧
    (solutionNonces eb zbits k uv sol0).Nodup := by
  have hrlen : (recoverSol eb zbits k uv sol0).length = PROOFSIZE := by
    rw [recoverSol_length]
    exact hsol0
  have hinj : ∀ i j, i < PROOFSIZE → j < PROOFSIZE →
      (recoverSol eb zbits k uv sol0).getD i 0 =
        (recoverSol eb zbits k uv sol0).getD j 0 → i = j := by
    intro i j hi hj heq
    have h1 := recoverSol_entry eb zbits k uv sol0 hlenuv hsol0 i hi (hmatch i hi)
    have h2 := recoverSol_entry eb zbits k uv sol0 hlenuv hsol0 j hj (hmatch j hj)
    rw [heq] at h1
    have huv : uv.getD i (0, 0) = uv.getD j (0, 0) := h1.trans h2.symm
    have hi2 : i < uv.length := by omega
    have hj2 : j < uv.length := by omega
    rw [List.getD_eq_getElem _ _ hi2, List.getD_eq_getElem _ _ hj2] at huv
    have hgets : uv.get ⟨i, hi2⟩ = uv.get ⟨j, hj2⟩ := by simpa using huv
    have hfin := List.nodup_iff_injective_get.mp hnodup hgets
    exact congrArg Fin.val hfin
  have hnodupR : (recoverSol eb zbits k uv sol0).Nodup := by
    rw [List.nodup_iff_injective_get]
    intro a b hab
    have ha := a.isLt
    have hb := b.isLt
    have hga : (recoverSol eb zbits k uv sol0).get a =
        (recoverSol eb zbits k uv sol0).getD a.val 0 := by
      rw [List.getD_eq_getElem _ _ a.isLt, List.get_eq_getElem]
    have hgb : (recoverSol eb zbits k uv sol0).get b =
        (recoverSol eb zbits k uv sol0).getD b.val 0 := by
      rw [List.getD_eq_getElem _ _ b.isLt, List.get_eq_getElem]
    have := hinj a.val b.val (by omega) (by omega) (by
      rw [← hga, ← hgb]
      exact hab)
    exact Fin.ext this
  have hperm := List.perm_insertionSort (α := Nat) (· ≤ ·)
    (recoverSol eb zbits k uv sol0)
  have hsortedLe := List.sorted_insertionSort (α := Nat) (· ≤ ·)
    (recoverSol eb zbits k uv sol0)
  have hnodupS : (solutionNonces eb zbits k uv sol0).Nodup :=
    hperm.nodup_iff.mpr hnodupR
  exact ⟨hsortedLe.lt_of_le hnodupS, hnodupS⟩

/-- Witness for C7: the 42 pairs obtained by hashing nonces 0..41 with the
zero keys at `E = 8`, each matched (by construction) by its own nonce. -/
theorem solution_nonces_strictly_ascending_witness :
    List.Sorted (· < ·) (solutionNonces 8 0 ⟨0, 0, 0, 0⟩
      ((List.range 42).map (dipPair 8 ⟨0, 0, 0, 0⟩)) (List.replicate 42 0)) ∧
    (solutionNonces 8 0 ⟨0, 0, 0, 0⟩
      ((List.range 42).map (dipPair 8 ⟨0, 0, 0, 0⟩)) (List.replicate 42 0)).Nodup :=
  solution_nonces_strictly_ascending 8 0 ⟨0, 0, 0, 0⟩
    ((List.range 42).map (dipPair 8 ⟨0, 0, 0, 0⟩)) (List.replicate 42 0)
    (by simp [PROOFSIZE]) (by simp [PROOFSIZE]) (by decide) (by decide)

end CuckooMiner
